import Mathlib

/-!
Verification of the 8-queens random-restart hill-climbing program
(`eight-queen.py`).

A board state is a list of integers indexed by column; the value at index
`c` is the row of the queen in column `c`.  The Python functions are
shallowly embedded as executable Lean definitions:

* `isDiagonal`            — `isDiagonal` (source lines 18-33)
* `calcAttacks`           — `calcAttacks` (source lines 35-48); the Python
  `set` of attack pairs becomes a `Finset`, built by folding the two
  `enumerate` loops in the same order.
* `getBestSuccessor`      — source lines 119-137
* `getFirstChoiceSuccessor` — source lines 140-157
* `randomEightQueensBoard`  — source lines 50-62
* `hillClimbing`          — source lines 77-114 (elapsed-time bookkeeping
  dropped; the global pseudo-random generator is modelled by an oracle
  stream `supply : Nat → Fin 8` of `randint(0, 7)` results together with a
  cursor that every consumer threads through).
-/

/-- Model of `isDiagonal` (lines 18-33): a point is `(row, column)`;
true iff the absolute row distance equals the absolute column distance. -/
def isDiagonal (p1 p2 : Int × Int) : Bool :=
  let h_dist := (p1.1 - p2.1).natAbs
  let v_dist := (p1.2 - p2.2).natAbs
  h_dist == v_dist

/-- The `(row, column)` point of the queen of column `i` on `board`
(Python `(q, i)` with `q = board[i]`). -/
def pt (board : List Int) (i : Nat) : Int × Int := (board.getD i 0, (i : Int))

/-- Body of the inner `for j, otherQ in enumerate(board)` loop of
`calcAttacks` (lines 40-47): insert the ordered pair `((q, i), (otherQ, j))`
when the two queens are distinct, in attack relation, and the reversed pair
has not been recorded yet. -/
def innerStep (board : List Int) (i : Nat)
    (attackPairs : Finset ((Int × Int) × (Int × Int))) (j : Nat) :
    Finset ((Int × Int) × (Int × Int)) :=
  if i ≠ j ∧ (board.getD i 0 = board.getD j 0 ∨ isDiagonal (pt board i) (pt board j) = true) ∧
      (pt board j, pt board i) ∉ attackPairs then
    insert (pt board i, pt board j) attackPairs
  else attackPairs

/-- The set `attackPairs` built by the two nested loops of `calcAttacks`
(lines 39-47). -/
def calcAttacksSet (board : List Int) : Finset ((Int × Int) × (Int × Int)) :=
  (List.range board.length).foldl
    (fun attackPairs i => (List.range board.length).foldl (innerStep board i) attackPairs) ∅

/-- Model of `calcAttacks` (lines 35-48): the number of recorded attack pairs. -/
def calcAttacks (board : List Int) : Nat := (calcAttacksSet board).card

/-- Specification-side attack test, written exactly as the spec phrases it:
queens at distinct columns `i ≠ j` with rows `q_i, q_j` attack iff
`q_i == q_j` or `|q_i - q_j| == |i - j|`.  The set collects one
representative `(i, j)` with `i < j` per unordered pair. -/
def specPairs (board : List Int) : Finset (Nat × Nat) :=
  (Finset.range board.length ×ˢ Finset.range board.length).filter
    (fun p => p.1 < p.2 ∧ (board.getD p.1 0 = board.getD p.2 0 ∨
      (board.getD p.1 0 - board.getD p.2 0).natAbs = ((p.1 : Int) - (p.2 : Int)).natAbs))

/-- Specification-side conflict count: the number of unordered attacking
pairs, each counted exactly once. -/
def specCount (board : List Int) : Nat := (specPairs board).card

/-- Attack test as one boolean, equal to the disjunction used by the code. -/
def atkB (board : List Int) (i j : Nat) : Bool :=
  (board.getD i 0 == board.getD j 0) || isDiagonal (pt board i) (pt board j)

theorem atkB_iff (board : List Int) (i j : Nat) :
    atkB board i j = true ↔
      (board.getD i 0 = board.getD j 0 ∨ isDiagonal (pt board i) (pt board j) = true) := by
  simp [atkB]

theorem natAbs_sub_swap (a b : Int) : (a - b).natAbs = (b - a).natAbs := by
  rw [← Int.natAbs_neg (a - b), neg_sub]

theorem atkB_symm (board : List Int) (i j : Nat) :
    atkB board i j = true ↔ atkB board j i = true := by
  simp only [atkB, isDiagonal, pt, Bool.or_eq_true, beq_iff_eq]
  rw [natAbs_sub_swap, natAbs_sub_swap ((i : Int)) ((j : Int))]
  constructor
  · rintro (h | h)
    · exact Or.inl h.symm
    · exact Or.inr h
  · rintro (h | h)
    · exact Or.inl h.symm
    · exact Or.inr h

/-- Embedding of index pairs into point pairs; injective because the column
component of a point determines the index. -/
def prEmb (board : List Int) : (Nat × Nat) ↪ ((Int × Int) × (Int × Int)) :=
  ⟨fun p => (pt board p.1, pt board p.2), by
    intro a b h
    have h1 : ((a.1 : Int)) = (b.1 : Int) := congrArg (fun z => z.1.2) h
    have h2 : ((a.2 : Int)) = (b.2 : Int) := congrArg (fun z => z.2.2) h
    exact Prod.ext (by exact_mod_cast h1) (by exact_mod_cast h2)⟩

/-- Index pairs recorded after the outer loop has fully processed rows
`< i` of the iteration and the inner loop of iteration `i` has processed
columns `< m`. -/
def idxPairs (board : List Int) (i m : Nat) : Finset (Nat × Nat) :=
  (Finset.range board.length ×ˢ Finset.range board.length).filter
    (fun p => (p.1 < i ∨ (p.1 = i ∧ p.2 < m)) ∧ p.1 < p.2 ∧ atkB board p.1 p.2 = true)

/-- The recorded pair set at a given loop stage. -/
def stage (board : List Int) (i m : Nat) : Finset ((Int × Int) × (Int × Int)) :=
  (idxPairs board i m).map (prEmb board)

theorem mem_idxPairs {board : List Int} {i m : Nat} {p : Nat × Nat} :
    p ∈ idxPairs board i m ↔
      (p.1 < board.length ∧ p.2 < board.length) ∧
        (p.1 < i ∨ (p.1 = i ∧ p.2 < m)) ∧ p.1 < p.2 ∧ atkB board p.1 p.2 = true := by
  simp [idxPairs, Finset.mem_filter, Finset.mem_product, Finset.mem_range, and_assoc]

theorem idxPairs_same {board : List Int} {i m : Nat}
    (hno : ¬(i < m ∧ atkB board i m = true)) :
    idxPairs board i (m + 1) = idxPairs board i m := by
  ext p
  simp only [mem_idxPairs]
  constructor
  · rintro ⟨hb, hst, hlt, hatk⟩
    refine ⟨hb, ?_, hlt, hatk⟩
    rcases hst with h | ⟨h1, h2⟩
    · exact Or.inl h
    · rcases Nat.lt_succ_iff_lt_or_eq.mp h2 with h2' | h2'
      · exact Or.inr ⟨h1, h2'⟩
      · exfalso
        exact hno ⟨by omega, by rw [← h1, ← h2']; exact hatk⟩
  · rintro ⟨hb, hst, hlt, hatk⟩
    exact ⟨hb, by omega, hlt, hatk⟩

theorem idxPairs_insert {board : List Int} {i m : Nat}
    (hi : i < board.length) (hm : m < board.length) (him : i < m)
    (hatk : atkB board i m = true) :
    idxPairs board i (m + 1) = insert (i, m) (idxPairs board i m) := by
  ext p
  simp only [mem_idxPairs, Finset.mem_insert]
  constructor
  · rintro ⟨hb, hst, hlt, hatk'⟩
    by_cases hp : p = (i, m)
    · exact Or.inl hp
    · right
      rw [Prod.ext_iff] at hp
      push_neg at hp
      refine ⟨hb, ?_, hlt, hatk'⟩
      rcases hst with h | ⟨h1, h2⟩
      · exact Or.inl h
      · rcases Nat.lt_succ_iff_lt_or_eq.mp h2 with h2' | h2'
        · exact Or.inr ⟨h1, h2'⟩
        · exact absurd h2' (hp h1)
  · rintro (hp | ⟨hb, hst, hlt, hatk'⟩)
    · rw [hp]
      exact ⟨⟨hi, hm⟩, Or.inr ⟨rfl, Nat.lt_succ_self m⟩, him, hatk⟩
    · exact ⟨hb, by omega, hlt, hatk'⟩

theorem stage_same {board : List Int} {i m : Nat}
    (hno : ¬(i < m ∧ atkB board i m = true)) :
    stage board i (m + 1) = stage board i m := by
  rw [stage, idxPairs_same hno, stage]

theorem stage_insert {board : List Int} {i m : Nat}
    (hi : i < board.length) (hm : m < board.length) (him : i < m)
    (hatk : atkB board i m = true) :
    stage board i (m + 1) = insert (pt board i, pt board m) (stage board i m) := by
  rw [stage, idxPairs_insert hi hm him hatk, Finset.map_insert, stage]
  rfl

theorem rev_mem_stage {board : List Int} {i m : Nat}
    (hi : i < board.length) (hm : m < board.length) :
    (pt board m, pt board i) ∈ stage board i m ↔ (m < i ∧ atkB board m i = true) := by
  have he : (pt board m, pt board i) = prEmb board (m, i) := rfl
  rw [he, stage, Finset.mem_map', mem_idxPairs]
  constructor
  · rintro ⟨-, -, h3, h4⟩
    exact ⟨h3, h4⟩
  · rintro ⟨h3, h4⟩
    exact ⟨⟨hm, hi⟩, Or.inl h3, h3, h4⟩

theorem innerStep_stage (board : List Int) (i m : Nat)
    (hi : i < board.length) (hm : m < board.length) :
    innerStep board i (stage board i m) m = stage board i (m + 1) := by
  by_cases hatk : atkB board i m = true
  · by_cases him : i < m
    · have hcond : i ≠ m ∧
          (board.getD i 0 = board.getD m 0 ∨ isDiagonal (pt board i) (pt board m) = true) ∧
          (pt board m, pt board i) ∉ stage board i m := by
        refine ⟨Nat.ne_of_lt him, (atkB_iff board i m).mp hatk, fun hmem => ?_⟩
        have := (rev_mem_stage hi hm).mp hmem
        omega
      simp only [innerStep]
      rw [if_pos hcond, stage_insert hi hm him hatk]
    · by_cases heq : i = m
      · simp only [innerStep]
        rw [if_neg (fun h => h.1 heq), stage_same (fun h => absurd h.1 him)]
      · have hrevin : (pt board m, pt board i) ∈ stage board i m :=
          (rev_mem_stage hi hm).mpr ⟨by omega, (atkB_symm board i m).mp hatk⟩
        simp only [innerStep]
        rw [if_neg (fun h => h.2.2 hrevin), stage_same (fun h => absurd h.1 him)]
  · simp only [innerStep]
    rw [if_neg (fun h => hatk ((atkB_iff board i m).mpr h.2.1)),
      stage_same (fun h => hatk h.2)]

theorem inner_fold (board : List Int) (i : Nat) (hi : i < board.length) :
    ∀ m, m ≤ board.length →
      (List.range m).foldl (innerStep board i) (stage board i 0) = stage board i m := by
  intro m
  induction m with
  | zero => intro _; simp
  | succ m ih =>
    intro hm
    rw [List.range_succ, List.foldl_append, ih (by omega)]
    simp only [List.foldl_cons, List.foldl_nil]
    exact innerStep_stage board i m hi (by omega)

theorem stage_zero (board : List Int) : stage board 0 0 = ∅ := by
  rw [stage]
  have : idxPairs board 0 0 = ∅ := by
    ext p
    simp only [mem_idxPairs, Finset.not_mem_empty, iff_false]
    rintro ⟨-, hst, -, -⟩
    omega
  rw [this, Finset.map_empty]

theorem stage_roll (board : List Int) (k : Nat) :
    stage board k board.length = stage board (k + 1) 0 := by
  rw [stage, stage]
  congr 1
  ext p
  simp only [mem_idxPairs]
  constructor
  · rintro ⟨hb, hst, hlt, hatk⟩
    exact ⟨hb, by omega, hlt, hatk⟩
  · rintro ⟨hb, hst, hlt, hatk⟩
    exact ⟨hb, by omega, hlt, hatk⟩

theorem outer_fold (board : List Int) :
    ∀ k, k ≤ board.length →
      (List.range k).foldl
        (fun attackPairs i => (List.range board.length).foldl (innerStep board i) attackPairs) ∅
        = stage board k 0 := by
  intro k
  induction k with
  | zero => intro _; simp [stage_zero]
  | succ k ih =>
    intro hk
    rw [List.range_succ, List.foldl_append, ih (by omega)]
    simp only [List.foldl_cons, List.foldl_nil]
    rw [inner_fold board k (by omega) board.length le_rfl]
    exact stage_roll board k

theorem atkB_eq_spec (board : List Int) (i j : Nat) :
    atkB board i j = true ↔
      (board.getD i 0 = board.getD j 0 ∨
        (board.getD i 0 - board.getD j 0).natAbs = ((i : Int) - (j : Int)).natAbs) := by
  simp [atkB, isDiagonal, pt]

theorem calcAttacksSet_eq (board : List Int) :
    calcAttacksSet board = (specPairs board).map (prEmb board) := by
  rw [calcAttacksSet, outer_fold board board.length le_rfl, stage]
  congr 1
  ext p
  simp only [mem_idxPairs, specPairs, Finset.mem_filter, Finset.mem_product, Finset.mem_range]
  constructor
  · rintro ⟨hb, -, hlt, hatk⟩
    exact ⟨⟨hb.1, hb.2⟩, hlt, (atkB_eq_spec board p.1 p.2).mp hatk⟩
  · rintro ⟨hb, hlt, hsp⟩
    exact ⟨⟨hb.1, hb.2⟩, Or.inl hb.1, hlt, (atkB_eq_spec board p.1 p.2).mpr hsp⟩

/-- Central characterization: `calcAttacks` counts exactly the unordered
attacking pairs, one representative `(i, j)` with `i < j` each. -/
theorem calcAttacks_eq_specCount (board : List Int) :
    calcAttacks board = specCount board := by
  rw [calcAttacks, calcAttacksSet_eq, Finset.card_map, specCount]

/-- A length-8 board has at most `C(8,2) = 28` attacking pairs. -/
theorem calcAttacks_le_28 (board : List Int) (hlen : board.length = 8) :
    calcAttacks board ≤ 28 := by
  rw [calcAttacks_eq_specCount, specCount]
  have hsub : specPairs board ⊆
      (Finset.range 8 ×ˢ Finset.range 8).filter (fun p => p.1 < p.2) := by
    intro p hp
    rw [specPairs, hlen] at hp
    simp only [Finset.mem_filter, Finset.mem_product, Finset.mem_range] at hp ⊢
    exact ⟨hp.1, hp.2.1⟩
  have hle := Finset.card_le_card hsub
  have h28 : ((Finset.range 8 ×ˢ Finset.range 8).filter (fun p => p.1 < p.2)).card = 28 := by
    decide
  omega

/-- The set of `(row, column)` points a board denotes. -/
def pointFinset (board : List Int) : Finset (Int × Int) :=
  ((List.range board.length).map (pt board)).toFinset

/-- Unordered attacking pairs of a set of points, represented by the pair
ordered by column; depends only on the point set. -/
def pointPairs (P : Finset (Int × Int)) : Finset ((Int × Int) × (Int × Int)) :=
  (P ×ˢ P).filter (fun z => z.1.2 < z.2.2 ∧
    (z.1.1 = z.2.1 ∨ (z.1.1 - z.2.1).natAbs = (z.1.2 - z.2.2).natAbs))

/-- The recorded attack-pair set is a function of the point set alone. -/
theorem calcAttacksSet_pointPairs (board : List Int) :
    calcAttacksSet board = pointPairs (pointFinset board) := by
  rw [calcAttacksSet_eq]
  ext z
  obtain ⟨z1, z2⟩ := z
  simp only [Finset.mem_map, pointPairs, Finset.mem_filter, Finset.mem_product,
    pointFinset, List.mem_toFinset, List.mem_map, List.mem_range, specPairs]
  constructor
  · rintro ⟨p, hp, hpe⟩
    obtain ⟨h1, h2⟩ : pt board p.1 = z1 ∧ pt board p.2 = z2 := by
      rw [Prod.ext_iff] at hpe
      exact hpe
    simp only [Finset.mem_filter, Finset.mem_product, Finset.mem_range] at hp
    obtain ⟨⟨hb1, hb2⟩, hlt, hcond⟩ := hp
    subst h1
    subst h2
    refine ⟨⟨⟨p.1, hb1, rfl⟩, ⟨p.2, hb2, rfl⟩⟩, ?_, ?_⟩
    · simp only [pt]
      exact_mod_cast hlt
    · exact hcond
  · rintro ⟨⟨⟨a, ha, hpa⟩, ⟨b, hb, hpb⟩⟩, hlt, hcond⟩
    subst hpa
    subst hpb
    refine ⟨(a, b), ?_, rfl⟩
    simp only [Finset.mem_filter, Finset.mem_product, Finset.mem_range]
    refine ⟨⟨ha, hb⟩, ?_, hcond⟩
    simp only [pt] at hlt
    exact_mod_cast hlt

/-- Claim C1: for boards of length 8 with values in `[0, 7]`, `calcAttacks`
counts exactly the unordered pairs of distinct columns whose queens share a
row or a diagonal, each pair once; in particular the known solution
`[0,4,7,5,2,6,1,3]` yields 0 and the all-zero board yields `C(8,2) = 28`. -/
theorem spec_C1 (board : List Int) (hlen : board.length = 8)
    (hvals : ∀ v ∈ board, 0 ≤ v ∧ v ≤ 7) :
    calcAttacks board = specCount board ∧
      calcAttacks [0, 4, 7, 5, 2, 6, 1, 3] = 0 ∧
      calcAttacks [0, 0, 0, 0, 0, 0, 0, 0] = 28 := by
  refine ⟨calcAttacks_eq_specCount board, ?_, ?_⟩
  · set_option maxRecDepth 4000 in decide
  · set_option maxRecDepth 4000 in decide

set_option maxRecDepth 4000 in
/-- Witness for C1 at the known solution board. -/
theorem spec_C1_witness :
    ([0, 4, 7, 5, 2, 6, 1, 3] : List Int).length = 8 ∧
      (∀ v ∈ ([0, 4, 7, 5, 2, 6, 1, 3] : List Int), 0 ≤ v ∧ v ≤ 7) ∧
      (calcAttacks [0, 4, 7, 5, 2, 6, 1, 3] =
          specCount [0, 4, 7, 5, 2, 6, 1, 3] ∧
        calcAttacks [0, 4, 7, 5, 2, 6, 1, 3] = 0 ∧
        calcAttacks [0, 0, 0, 0, 0, 0, 0, 0] = 28) :=
  ⟨by decide, by decide, spec_C1 [0, 4, 7, 5, 2, 6, 1, 3] (by decide) (by decide)⟩

/-- Claim C9: for length-8 boards with values in `[0, 7]`, `calcAttacks`
depends only on the set of `(row, column)` points the state denotes, not on
presentation order: two states denoting the same points get equal counts. -/
theorem spec_C9 (s t : List Int) (hs : s.length = 8) (ht : t.length = 8)
    (hsv : ∀ v ∈ s, 0 ≤ v ∧ v ≤ 7) (htv : ∀ v ∈ t, 0 ≤ v ∧ v ≤ 7)
    (hP : pointFinset s = pointFinset t) :
    calcAttacks s = calcAttacks t := by
  rw [calcAttacks, calcAttacks, calcAttacksSet_pointPairs, calcAttacksSet_pointPairs, hP]

/-- Successor built by line 131: `current_state[:col] + [row] + current_state[col+1:]`. -/
def makeSuccessor (current_state : List Int) (col row : Nat) : List Int :=
  current_state.take col ++ [(row : Int)] ++ current_state.drop (col + 1)

/-- Body of the scan of `getBestSuccessor` (lines 131-135): evaluate the
candidate and keep it when strictly better than the best so far. -/
def bestStep (acc : Option (List Int) × Nat) (successor : List Int) :
    Option (List Int) × Nat :=
  let successorAttacks := calcAttacks successor
  if acc.2 > successorAttacks then (some successor, successorAttacks) else acc

/-- Model of `getBestSuccessor` (lines 119-137): nested loops over columns
and rows, skipping the row already occupied, starting the minimization from
the sentinel `(None, 999)`. -/
def getBestSuccessor (current_state : List Int) : Option (List Int) × Nat :=
  (List.range current_state.length).foldl
    (fun acc col =>
      (List.range current_state.length).foldl
        (fun acc (row : Nat) =>
          if (row : Int) ≠ current_state.getD col 0 then
            bestStep acc (makeSuccessor current_state col row)
          else acc)
        acc)
    (none, 999)

/-- The 56 candidate states of the spec, in the code's iteration order:
columns ascending, rows ascending, skipping the currently occupied row. -/
def candList (current_state : List Int) : List (List Int) :=
  (List.range current_state.length).flatMap (fun col =>
    ((List.range current_state.length).filter
        (fun (row : Nat) => !((row : Int) == current_state.getD col 0))).map
      (makeSuccessor current_state col))

theorem foldl_filter_if {α β : Type} (p : α → Bool) (f : β → α → β) :
    ∀ (l : List α) (a : β),
      (l.filter p).foldl f a = l.foldl (fun a x => if p x then f a x else a) a := by
  intro l
  induction l with
  | nil => intro a; rfl
  | cons x t ih =>
    intro a
    rcases hp : p x with _ | _ <;> simp [List.filter_cons, hp, ih]

theorem foldl_flatMap {α β γ : Type} (g : α → List β) (f : γ → β → γ) :
    ∀ (l : List α) (a : γ),
      (l.flatMap g).foldl f a = l.foldl (fun a x => (g x).foldl f a) a := by
  intro l
  induction l with
  | nil => intro a; rfl
  | cons x t ih =>
    intro a
    rw [List.flatMap_cons, List.foldl_append, List.foldl_cons, ih]

/-- The nested loops of `getBestSuccessor` scan exactly the candidate list. -/
theorem getBestSuccessor_eq_fold (s : List Int) :
    getBestSuccessor s = (candList s).foldl bestStep (none, 999) := by
  rw [getBestSuccessor, candList, foldl_flatMap]
  have hstep : ∀ (col : Nat) (acc : Option (List Int) × Nat),
      ((((List.range s.length).filter
          (fun (row : Nat) => !((row : Int) == s.getD col 0))).map
        (makeSuccessor s col)).foldl bestStep acc)
      = (List.range s.length).foldl
          (fun acc (row : Nat) =>
            if (row : Int) ≠ s.getD col 0 then bestStep acc (makeSuccessor s col row)
            else acc) acc := by
    intro col acc
    rw [List.foldl_map, foldl_filter_if]
    have harg : (fun (a : Option (List Int) × Nat) (x : Nat) =>
        if (!((x : Int) == s.getD col 0)) = true then bestStep a (makeSuccessor s col x)
        else a)
      = (fun a (x : Nat) =>
          if (x : Int) ≠ s.getD col 0 then bestStep a (makeSuccessor s col x) else a) := by
      funext a x
      by_cases h : (x : Int) = s.getD col 0 <;> simp [h]
    rw [harg]
  have houter : (fun (acc : Option (List Int) × Nat) (col : Nat) =>
      ((((List.range s.length).filter
          (fun (row : Nat) => !((row : Int) == s.getD col 0))).map
        (makeSuccessor s col)).foldl bestStep acc))
    = (fun acc col => (List.range s.length).foldl
        (fun acc (row : Nat) =>
          if (row : Int) ≠ s.getD col 0 then bestStep acc (makeSuccessor s col row)
          else acc) acc) := by
    funext acc col
    exact hstep col acc
  rw [houter]

theorem mem_candList {s c : List Int} :
    c ∈ candList s ↔ ∃ col, col < s.length ∧ ∃ row, row < s.length ∧
      (row : Int) ≠ s.getD col 0 ∧ c = makeSuccessor s col row := by
  simp only [candList, List.mem_flatMap, List.mem_map, List.mem_filter, List.mem_range]
  constructor
  · rintro ⟨col, hcol, row, ⟨hrow, hne⟩, rfl⟩
    refine ⟨col, hcol, row, hrow, ?_, rfl⟩
    simpa using hne
  · rintro ⟨col, hcol, row, hrow, hne, rfl⟩
    refine ⟨col, hcol, row, ⟨hrow, ?_⟩, rfl⟩
    simpa using hne

theorem makeSuccessor_length {s : List Int} {col row : Nat} (hcol : col < s.length) :
    (makeSuccessor s col row).length = s.length := by
  simp only [makeSuccessor, List.length_append, List.length_take, List.length_drop,
    List.length_cons, List.length_nil]
  omega

theorem makeSuccessor_vals {s : List Int} {col row : Nat}
    (hvals : ∀ v ∈ s, 0 ≤ v ∧ v ≤ 7) (hrow : row < 8) :
    ∀ v ∈ makeSuccessor s col row, 0 ≤ v ∧ v ≤ 7 := by
  intro v hv
  simp only [makeSuccessor, List.mem_append, List.mem_singleton] at hv
  rcases hv with (hv | hv) | hv
  · exact hvals v (List.take_subset col s hv)
  · constructor
    · rw [hv]; exact Int.natCast_nonneg row
    · rw [hv]; exact_mod_cast Nat.le_of_lt_succ (by omega)
  · exact hvals v (List.drop_subset (col + 1) s hv)

theorem candList_ne_nil (s : List Int) (hlen : s.length = 8) : candList s ≠ [] := by
  have hmem : makeSuccessor s 0 (if s.getD 0 0 = 0 then 1 else 0) ∈ candList s := by
    rw [mem_candList]
    refine ⟨0, by omega, if s.getD 0 0 = 0 then 1 else 0, ?_, ?_, rfl⟩
    · split <;> omega
    · by_cases h : s.getD 0 0 = 0
      · rw [if_pos h, h]
        decide
      · rw [if_neg h]
        intro e
        exact h (by exact_mod_cast e.symm)
  intro hnil
  rw [hnil] at hmem
  exact (List.not_mem_nil _) hmem

/-- Behaviour of the minimization scan started at an already-seen candidate:
it returns the minimum conflict count and the first candidate attaining it. -/
theorem bestFold_spec (t : List (List Int)) : ∀ (c : List Int),
    (t.foldl bestStep (some c, calcAttacks c)).2 ≤ calcAttacks c ∧
    (∀ d ∈ t, (t.foldl bestStep (some c, calcAttacks c)).2 ≤ calcAttacks d) ∧
    (∃ d, (t.foldl bestStep (some c, calcAttacks c)).1 = some d ∧
      (t.foldl bestStep (some c, calcAttacks c)).2 = calcAttacks d ∧ (d = c ∨ d ∈ t)) ∧
    ((t.foldl bestStep (some c, calcAttacks c)).2 = calcAttacks c →
      t.foldl bestStep (some c, calcAttacks c) = (some c, calcAttacks c)) ∧
    ((t.foldl bestStep (some c, calcAttacks c)).2 < calcAttacks c →
      (t.foldl bestStep (some c, calcAttacks c)).1 =
        t.find? (fun d => calcAttacks d == (t.foldl bestStep (some c, calcAttacks c)).2)) := by
  induction t with
  | nil =>
    intro c
    refine ⟨le_rfl, by simp, ⟨c, rfl, rfl, Or.inl rfl⟩, fun _ => rfl, fun h => absurd h (by simp)⟩
  | cons d t ih =>
    intro c
    rw [List.foldl_cons]
    by_cases hlt : calcAttacks d < calcAttacks c
    · have hstep : bestStep (some c, calcAttacks c) d = (some d, calcAttacks d) := by
        simp only [bestStep]
        rw [if_pos]
        exact hlt
      rw [hstep]
      obtain ⟨ih1, ih2, ih3, ih4, ih5⟩ := ih d
      refine ⟨by omega, ?_, ?_, ?_, ?_⟩
      · intro e he
        rcases List.mem_cons.mp he with he | he
        · rw [he]; exact ih1
        · exact ih2 e he
      · obtain ⟨d', hd1, hd2, hd3⟩ := ih3
        refine ⟨d', hd1, hd2, Or.inr ?_⟩
        rcases hd3 with h | h
        · exact h ▸ List.mem_cons_self d t
        · exact List.mem_cons_of_mem d h
      · intro h
        omega
      · intro h
        by_cases he : (t.foldl bestStep (some d, calcAttacks d)).2 = calcAttacks d
        · have hr := ih4 he
          rw [hr, List.find?_cons_of_pos _ (by simp)]
        · have hlt2 : (t.foldl bestStep (some d, calcAttacks d)).2 < calcAttacks d :=
            lt_of_le_of_ne ih1 he
          rw [List.find?_cons_of_neg, ih5 hlt2]
          simp only [beq_iff_eq]
          omega
    · have hstep : bestStep (some c, calcAttacks c) d = (some c, calcAttacks c) := by
        simp only [bestStep]
        rw [if_neg]
        exact hlt
      rw [hstep]
      obtain ⟨ih1, ih2, ih3, ih4, ih5⟩ := ih c
      refine ⟨ih1, ?_, ?_, ih4, ?_⟩
      · intro e he
        rcases List.mem_cons.mp he with he | he
        · rw [he]; omega
        · exact ih2 e he
      · obtain ⟨d', hd1, hd2, hd3⟩ := ih3
        refine ⟨d', hd1, hd2, ?_⟩
        rcases hd3 with h | h
        · exact Or.inl h
        · exact Or.inr (List.mem_cons_of_mem d h)
      · intro h
        rw [List.find?_cons_of_neg, ih5 h]
        simp only [beq_iff_eq]
        omega

theorem candList_mem_length {s c : List Int} (hc : c ∈ candList s) :
    c.length = s.length := by
  obtain ⟨col, hcol, row, hrow, hne, rfl⟩ := mem_candList.mp hc
  exact makeSuccessor_length hcol

theorem candList_count_le {s c : List Int} (hlen : s.length = 8)
    (hc : c ∈ candList s) : calcAttacks c ≤ 28 :=
  calcAttacks_le_28 c (by rw [candList_mem_length hc, hlen])

theorem candList_mem_vals {s c : List Int} (hlen : s.length = 8)
    (hvals : ∀ v ∈ s, 0 ≤ v ∧ v ≤ 7) (hc : c ∈ candList s) :
    ∀ v ∈ c, 0 ≤ v ∧ v ≤ 7 := by
  obtain ⟨col, hcol, row, hrow, hne, rfl⟩ := mem_candList.mp hc
  exact makeSuccessor_vals hvals (by omega)

theorem candList_length (s : List Int) (hlen : s.length = 8)
    (hvals : ∀ v ∈ s, 0 ≤ v ∧ v ≤ 7) : (candList s).length = 56 := by
  have hfilter : ∀ k : Nat, k < 8 →
      ((List.range 8).filter (fun (row : Nat) => !(row == k))).length = 7 := by decide
  rw [candList, hlen, List.length_flatMap]
  have hcol : ∀ col ∈ List.range 8,
      (List.length ∘ fun col => (((List.range 8).filter
          (fun (row : Nat) => !((row : Int) == s.getD col 0))).map
        (makeSuccessor s col))) col = (fun _ => 7) col := by
    intro col hcolmem
    have hcol8 : col < 8 := List.mem_range.mp hcolmem
    simp only [Function.comp, List.length_map]
    have hv : s.getD col 0 ∈ s := by
      rw [List.getD_eq_getElem s 0 (by omega)]
      exact List.getElem_mem (by omega)
    obtain ⟨h0, h7⟩ := hvals _ hv
    have heq : (fun (row : Nat) => !((row : Int) == s.getD col 0))
        = (fun (row : Nat) => !(row == (s.getD col 0).toNat)) := by
      funext r
      refine congrArg (fun b => !b) ?_
      by_cases h : r = (s.getD col 0).toNat
      · subst h
        simp only [Int.toNat_of_nonneg h0, beq_self_eq_true]
      · have hne : ((r : Int)) ≠ s.getD col 0 := by omega
        rw [beq_eq_false_iff_ne.mpr hne, beq_eq_false_iff_ne.mpr h]
    rw [heq]
    exact hfilter (s.getD col 0).toNat (by omega)
  rw [List.map_congr_left hcol]
  decide

/-- Decomposition of the scan of `getBestSuccessor`: the first candidate
always strictly beats the sentinel 999, so the fold proceeds from it. -/
theorem getBest_decomp (s : List Int) (hlen : s.length = 8) :
    ∃ c₀ t, candList s = c₀ :: t ∧
      getBestSuccessor s = t.foldl bestStep (some c₀, calcAttacks c₀) := by
  obtain ⟨c₀, t, hct⟩ := List.exists_cons_of_ne_nil (candList_ne_nil s hlen)
  refine ⟨c₀, t, hct, ?_⟩
  rw [getBestSuccessor_eq_fold, hct, List.foldl_cons]
  have hc : calcAttacks c₀ ≤ 28 := by
    refine candList_count_le hlen ?_
    rw [hct]
    exact List.mem_cons_self c₀ t
  have hstep : bestStep (none, 999) c₀ = (some c₀, calcAttacks c₀) := by
    simp only [bestStep]
    rw [if_pos]
    omega
  rw [hstep]

/-- Claim C2: `getBestSuccessor` scans exactly the 56 single-queen
row-change candidates (columns ascending, rows ascending, current row
skipped), returns exactly the minimal conflict count among them, and the
returned state is the first candidate attaining that minimum. -/
theorem spec_C2 (s : List Int) (hlen : s.length = 8)
    (hvals : ∀ v ∈ s, 0 ≤ v ∧ v ≤ 7) :
    (candList s).length = 56 ∧
      (getBestSuccessor s).2 ∈ (candList s).map calcAttacks ∧
      (∀ c ∈ candList s, (getBestSuccessor s).2 ≤ calcAttacks c) ∧
      (getBestSuccessor s).1 =
        (candList s).find? (fun c => calcAttacks c == (getBestSuccessor s).2) := by
  obtain ⟨c₀, t, hct, hfold⟩ := getBest_decomp s hlen
  obtain ⟨h1, h2, ⟨d, hd1, hd2, hd3⟩, h4, h5⟩ := bestFold_spec t c₀
  refine ⟨candList_length s hlen hvals, ?_, ?_, ?_⟩
  · rw [hfold, hct]
    refine List.mem_map.mpr ⟨d, ?_, hd2.symm⟩
    rcases hd3 with h | h
    · exact h ▸ List.mem_cons_self c₀ t
    · exact List.mem_cons_of_mem c₀ h
  · intro c hc
    rw [hfold]
    rw [hct] at hc
    rcases List.mem_cons.mp hc with h | h
    · rw [h]
      exact h1
    · exact h2 c h
  · rw [hfold, hct]
    by_cases he : (t.foldl bestStep (some c₀, calcAttacks c₀)).2 = calcAttacks c₀
    · rw [h4 he, List.find?_cons_of_pos _ (by simp)]
    · have hlt : (t.foldl bestStep (some c₀, calcAttacks c₀)).2 < calcAttacks c₀ :=
        lt_of_le_of_ne h1 he
      rw [List.find?_cons_of_neg, h5 hlt]
      simp only [beq_iff_eq]
      omega

set_option maxRecDepth 4000 in
/-- Witness for C2 on the all-zero board. -/
theorem spec_C2_witness :
    ([0, 0, 0, 0, 0, 0, 0, 0] : List Int).length = 8 ∧
      (∀ v ∈ ([0, 0, 0, 0, 0, 0, 0, 0] : List Int), 0 ≤ v ∧ v ≤ 7) ∧
      ((candList [0, 0, 0, 0, 0, 0, 0, 0]).length = 56 ∧
        (getBestSuccessor [0, 0, 0, 0, 0, 0, 0, 0]).2 ∈
          (candList [0, 0, 0, 0, 0, 0, 0, 0]).map calcAttacks ∧
        (∀ c ∈ candList [0, 0, 0, 0, 0, 0, 0, 0],
          (getBestSuccessor [0, 0, 0, 0, 0, 0, 0, 0]).2 ≤ calcAttacks c) ∧
        (getBestSuccessor [0, 0, 0, 0, 0, 0, 0, 0]).1 =
          (candList [0, 0, 0, 0, 0, 0, 0, 0]).find?
            (fun c => calcAttacks c == (getBestSuccessor [0, 0, 0, 0, 0, 0, 0, 0]).2)) :=
  ⟨by decide, by decide, spec_C2 [0, 0, 0, 0, 0, 0, 0, 0] (by decide) (by decide)⟩

/-- Claim C3: `getBestSuccessor` always returns an actual candidate, never
the sentinel pair: the state is `some` candidate, and the count is that
candidate's conflict count, at most 28 and strictly below 999. -/
theorem spec_C3 (s : List Int) (hlen : s.length = 8)
    (hvals : ∀ v ∈ s, 0 ≤ v ∧ v ≤ 7) :
    ∃ c, (getBestSuccessor s).1 = some c ∧ c ∈ candList s ∧
      (getBestSuccessor s).2 = calcAttacks c ∧
      (getBestSuccessor s).2 ≤ 28 ∧ (getBestSuccessor s).2 < 999 := by
  obtain ⟨c₀, t, hct, hfold⟩ := getBest_decomp s hlen
  obtain ⟨h1, h2, ⟨d, hd1, hd2, hd3⟩, h4, h5⟩ := bestFold_spec t c₀
  have hd_mem : d ∈ candList s := by
    rw [hct]
    rcases hd3 with h | h
    · exact h ▸ List.mem_cons_self c₀ t
    · exact List.mem_cons_of_mem c₀ h
  have hdle : calcAttacks d ≤ 28 := candList_count_le hlen hd_mem
  refine ⟨d, by rw [hfold]; exact hd1, hd_mem, by rw [hfold]; exact hd2, ?_, ?_⟩
  · rw [hfold, hd2]
    exact hdle
  · rw [hfold, hd2]
    omega

set_option maxRecDepth 4000 in
/-- Witness for C3 on the all-zero board. -/
theorem spec_C3_witness :
    ([0, 0, 0, 0, 0, 0, 0, 0] : List Int).length = 8 ∧
      (∀ v ∈ ([0, 0, 0, 0, 0, 0, 0, 0] : List Int), 0 ≤ v ∧ v ≤ 7) ∧
      (∃ c, (getBestSuccessor [0, 0, 0, 0, 0, 0, 0, 0]).1 = some c ∧
        c ∈ candList [0, 0, 0, 0, 0, 0, 0, 0] ∧
        (getBestSuccessor [0, 0, 0, 0, 0, 0, 0, 0]).2 = calcAttacks c ∧
        (getBestSuccessor [0, 0, 0, 0, 0, 0, 0, 0]).2 ≤ 28 ∧
        (getBestSuccessor [0, 0, 0, 0, 0, 0, 0, 0]).2 < 999) :=
  ⟨by decide, by decide, spec_C3 [0, 0, 0, 0, 0, 0, 0, 0] (by decide) (by decide)⟩

/-- Oracle model of the global pseudo-random generator: position `n` of the
stream is the result of the `n`-th call to `randint(0, 7)`.  A supply is
fair when every value keeps occurring past every position — the
almost-surely-true property of an unbounded sequence of uniform draws. -/
def FairSupply (supply : Nat → Fin 8) : Prop :=
  ∀ (v : Fin 8) (start : Nat), ∃ k, supply (start + k) = v

theorem missing_value_exists (board : List Int) (hlen : board.length ≤ 8)
    (hneg : (-1 : Int) ∈ board) : ∃ v : Fin 8, ((v : Nat) : Int) ∉ board := by
  by_contra hall
  push_neg at hall
  have hsub : insert (-1 : Int)
      (Finset.image (fun v : Fin 8 => ((v : Nat) : Int)) Finset.univ) ⊆ board.toFinset := by
    intro x hx
    rcases Finset.mem_insert.mp hx with h | h
    · rw [h]
      exact List.mem_toFinset.mpr hneg
    · obtain ⟨v, -, rfl⟩ := Finset.mem_image.mp h
      exact List.mem_toFinset.mpr (hall v)
  have hcard9 : (insert (-1 : Int)
      (Finset.image (fun v : Fin 8 => ((v : Nat) : Int)) Finset.univ)).card = 9 := by decide
  have hle := Finset.card_le_card hsub
  have hcl := List.toFinset_card_le board
  omega

/-- Termination of the rejection-sampling retry loop (lines 57-60): as long
as the board still has a free value in `[0, 7]` (it always contains `-1`
while filling), a fair supply eventually produces a fresh draw. -/
theorem fresh_exists {supply : Nat → Fin 8} (fair : FairSupply supply) (start : Nat)
    (board : List Int) (hlen : board.length ≤ 8) (hneg : (-1 : Int) ∈ board) :
    ∃ k, (((supply (start + k) : Nat) : Int)) ∉ board := by
  obtain ⟨v, hv⟩ := missing_value_exists board hlen hneg
  obtain ⟨k, hk⟩ := fair v start
  exact ⟨k, by rw [hk]; exact hv⟩

/-- Model of lines 57-60: consume draws starting at `start` until the first
one whose value is not already on the board; return the new cursor and the
drawn row. -/
def drawFresh (supply : Nat → Fin 8) (board : List Int) (start : Nat)
    (h : ∃ k, (((supply (start + k) : Nat) : Int)) ∉ board) : Nat × Int :=
  (start + Nat.find h + 1, ((supply (start + Nat.find h) : Nat) : Int))

/-- Model of the `for i in range(8)` loop of `randomEightQueensBoard`
(lines 56-61), filling position `i` with a fresh draw.  The guard makes the
freshness-existence argument available; it holds at every real iteration
because unfilled cells still carry the initial `-1`. -/
def fillBoard (supply : Nat → Fin 8) (fair : FairSupply supply) :
    Nat → Nat → List Int → Nat → List Int × Nat
  | 0, _, board, idx => (board, idx)
  | fuel + 1, i, board, idx =>
    if h : (-1 : Int) ∈ board ∧ board.length ≤ 8 then
      fillBoard supply fair fuel (i + 1)
        (board.set i (drawFresh supply board idx (fresh_exists fair idx board h.2 h.1)).2)
        (drawFresh supply board idx (fresh_exists fair idx board h.2 h.1)).1
    else (board, idx)

/-- Model of `randomEightQueensBoard` (lines 50-62): start from `[-1] * 8`
and fill each of the 8 cells with a fresh row. -/
def randomEightQueensBoard (supply : Nat → Fin 8) (fair : FairSupply supply)
    (idx : Nat) : List Int × Nat :=
  fillBoard supply fair 8 0 (List.replicate 8 (-1)) idx

theorem set_append_length (p q : List Int) (x : Int) :
    (p ++ q).set p.length x = p ++ q.set 0 x := by
  induction p with
  | nil => rfl
  | cons a p ih => simp [ih]

theorem fillBoard_spec (supply : Nat → Fin 8) (fair : FairSupply supply) :
    ∀ (fuel : Nat) (p : List Int) (idx : Nat),
      p.length + fuel = 8 → p.Nodup → (∀ v ∈ p, 0 ≤ v ∧ v ≤ 7) →
      (fillBoard supply fair fuel p.length (p ++ List.replicate fuel (-1)) idx).1.length = 8 ∧
      (fillBoard supply fair fuel p.length (p ++ List.replicate fuel (-1)) idx).1.Nodup ∧
      (∀ v ∈ (fillBoard supply fair fuel p.length (p ++ List.replicate fuel (-1)) idx).1,
        0 ≤ v ∧ v ≤ 7) := by
  intro fuel
  induction fuel with
  | zero =>
    intro p idx hlen hnd hv
    simp only [fillBoard, List.replicate_zero, List.append_nil]
    exact ⟨by omega, hnd, hv⟩
  | succ fuel ih =>
    intro p idx hlen hnd hv
    have hneg : (-1 : Int) ∈ p ++ List.replicate (fuel + 1) (-1) := by
      refine List.mem_append.mpr (Or.inr ?_)
      rw [List.replicate_succ]
      exact List.mem_cons_self _ _
    have hblen : (p ++ List.replicate (fuel + 1) (-1)).length ≤ 8 := by
      simp only [List.length_append, List.length_replicate]
      omega
    rw [fillBoard, dif_pos ⟨hneg, hblen⟩]
    simp only [drawFresh]
    have hfr := Nat.find_spec
      (fresh_exists fair idx (p ++ List.replicate (fuel + 1) (-1)) hblen hneg)
    generalize hrow : ((supply (idx + Nat.find (fresh_exists fair idx
      (p ++ List.replicate (fuel + 1) (-1)) hblen hneg)) : Nat) : Int) = row at *
    have hrow0 : 0 ≤ row := by rw [← hrow]; exact Int.natCast_nonneg _
    have hrow7 : row ≤ 7 := by
      rw [← hrow]
      exact_mod_cast Nat.le_of_lt_succ (Fin.isLt _)
    have hrownp : row ∉ p := fun hmem => hfr (List.mem_append.mpr (Or.inl hmem))
    have hset : (p ++ List.replicate (fuel + 1) (-1)).set p.length row
        = (p ++ [row]) ++ List.replicate fuel (-1) := by
      rw [set_append_length, List.replicate_succ]
      simp only [List.set_cons_zero]
      exact List.append_cons p row (List.replicate fuel (-1))
    rw [hset]
    have hlen1 : p.length + 1 = (p ++ [row]).length := by simp
    rw [hlen1]
    refine ih (p ++ [row]) _ (by simp; omega) ?_ ?_
    · refine List.nodup_middle.mpr ?_
      rw [List.append_nil]
      exact List.nodup_cons.mpr ⟨hrownp, hnd⟩
    · intro v hvm
      rcases List.mem_append.mp hvm with h | h
      · exact hv v h
      · rw [List.mem_singleton.mp h]
        exact ⟨hrow0, hrow7⟩

theorem randomBoard_spec (supply : Nat → Fin 8) (fair : FairSupply supply) (idx : Nat) :
    (randomEightQueensBoard supply fair idx).1.length = 8 ∧
    (randomEightQueensBoard supply fair idx).1.Nodup ∧
    (∀ v ∈ (randomEightQueensBoard supply fair idx).1, 0 ≤ v ∧ v ≤ 7) := by
  have h := fillBoard_spec supply fair 8 [] idx (by simp) List.nodup_nil (by simp)
  simpa [randomEightQueensBoard] using h

/-- Claim C7: the random initial board is always an 8-element sequence of
distinct values in `[0, 7]` — a permutation of `[0..7]`. -/
theorem spec_C7 (supply : Nat → Fin 8) (fair : FairSupply supply) (idx : Nat) :
    (randomEightQueensBoard supply fair idx).1.length = 8 ∧
    (randomEightQueensBoard supply fair idx).1.Nodup ∧
    (∀ v ∈ (randomEightQueensBoard supply fair idx).1, 0 ≤ v ∧ v ≤ 7) ∧
    (randomEightQueensBoard supply fair idx).1.Perm
      ((List.range 8).map (fun (n : Nat) => (n : Int))) := by
  obtain ⟨hl, hn, hv⟩ := randomBoard_spec supply fair idx
  refine ⟨hl, hn, hv, ?_⟩
  have hsub : (randomEightQueensBoard supply fair idx).1 ⊆
      (List.range 8).map (fun (n : Nat) => (n : Int)) := by
    intro x hx
    obtain ⟨h0, h7⟩ := hv x hx
    refine List.mem_map.mpr ⟨x.toNat, ?_, ?_⟩
    · exact List.mem_range.mpr (by omega)
    · omega
  refine (List.subperm_of_subset hn hsub).perm_of_length_le ?_
  rw [hl]
  simp

/-- A concrete fair supply: cycle through the eight values. -/
def mod8Supply (n : Nat) : Fin 8 := ⟨n % 8, Nat.mod_lt n (by omega)⟩

theorem mod8Supply_fair : FairSupply mod8Supply := by
  intro v start
  refine ⟨(v : Nat) + 8 - start % 8, ?_⟩
  apply Fin.ext
  simp only [mod8Supply]
  have hv := v.isLt
  omega

/-- Witness for C7 with the cycling supply. -/
theorem spec_C7_witness :
    FairSupply mod8Supply ∧
      ((randomEightQueensBoard mod8Supply mod8Supply_fair 0).1.length = 8 ∧
        (randomEightQueensBoard mod8Supply mod8Supply_fair 0).1.Nodup ∧
        (∀ v ∈ (randomEightQueensBoard mod8Supply mod8Supply_fair 0).1, 0 ≤ v ∧ v ≤ 7) ∧
        (randomEightQueensBoard mod8Supply mod8Supply_fair 0).1.Perm
          ((List.range 8).map (fun (n : Nat) => (n : Int)))) :=
  ⟨mod8Supply_fair, spec_C7 mod8Supply mod8Supply_fair 0⟩

set_option maxRecDepth 4000 in
/-- Witness for C9. -/
theorem spec_C9_witness :
    ([0, 4, 7, 5, 2, 6, 1, 3] : List Int).length = 8 ∧
      (∀ v ∈ ([0, 4, 7, 5, 2, 6, 1, 3] : List Int), 0 ≤ v ∧ v ≤ 7) ∧
      pointFinset [0, 4, 7, 5, 2, 6, 1, 3] = pointFinset [0, 4, 7, 5, 2, 6, 1, 3] ∧
      calcAttacks [0, 4, 7, 5, 2, 6, 1, 3] = calcAttacks [0, 4, 7, 5, 2, 6, 1, 3] :=
  ⟨by decide, by decide, rfl,
    spec_C9 [0, 4, 7, 5, 2, 6, 1, 3] [0, 4, 7, 5, 2, 6, 1, 3] (by decide) (by decide)
      (by decide) (by decide) rfl⟩

/-- Model of one random full board of `getFirstChoiceSuccessor`
(lines 147-150): `n` consecutive draws from the supply starting at `idx`. -/
def genCandidate (supply : Nat → Fin 8) (idx : Nat) (n : Nat) : List Int :=
  (List.range n).map (fun (j : Nat) => ((supply (idx + j) : Nat) : Int))

/-- The `for i in range(maxGeneration)` loop of `getFirstChoiceSuccessor`
(lines 146-157): each attempt consumes `len(current_state)` draws; the
first candidate strictly better than the current count, or solving, is
returned with its count, else the current state and count unchanged. -/
def firstChoiceAux (supply : Nat → Fin 8) (current_state : List Int)
    (currentAttacks : Nat) : Nat → Nat → (List Int × Nat) × Nat
  | 0, idx => ((current_state, currentAttacks), idx)
  | fuel + 1, idx =>
    if calcAttacks (genCandidate supply idx current_state.length) < currentAttacks ∨
        calcAttacks (genCandidate supply idx current_state.length) = 0 then
      ((genCandidate supply idx current_state.length,
        calcAttacks (genCandidate supply idx current_state.length)),
        idx + current_state.length)
    else firstChoiceAux supply current_state currentAttacks fuel (idx + current_state.length)

/-- Model of `getFirstChoiceSuccessor` (lines 140-157). -/
def getFirstChoiceSuccessor (supply : Nat → Fin 8) (idx : Nat)
    (current_state : List Int) : (List Int × Nat) × Nat :=
  firstChoiceAux supply current_state (calcAttacks current_state) 100 idx

/-- The `i`-th candidate board the first-choice loop generates. -/
def fcCand (supply : Nat → Fin 8) (idx : Nat) (s : List Int) (i : Nat) : List Int :=
  genCandidate supply (idx + s.length * i) s.length

/-- The `i`-th candidate is accepted: strictly fewer conflicts than the
current state, or none at all. -/
def fcGood (supply : Nat → Fin 8) (idx : Nat) (s : List Int) (ca i : Nat) : Prop :=
  calcAttacks (fcCand supply idx s i) < ca ∨ calcAttacks (fcCand supply idx s i) = 0

theorem fcCand_shift (supply : Nat → Fin 8) (base : Nat) (s : List Int) (i : Nat) :
    fcCand supply (base + s.length) s i = fcCand supply base s (i + 1) := by
  simp only [fcCand]
  congr 1
  ring

theorem fcCand_zero (supply : Nat → Fin 8) (base : Nat) (s : List Int) :
    fcCand supply base s 0 = genCandidate supply base s.length := by
  simp [fcCand]

theorem firstChoiceAux_spec (supply : Nat → Fin 8) (s : List Int) (ca : Nat) :
    ∀ (fuel base : Nat),
      ((∀ i, i < fuel → ¬fcGood supply base s ca i) →
        (firstChoiceAux supply s ca fuel base).1 = (s, ca)) ∧
      (∀ i, i < fuel → fcGood supply base s ca i →
        (∀ j, j < i → ¬fcGood supply base s ca j) →
        (firstChoiceAux supply s ca fuel base).1 =
          (fcCand supply base s i, calcAttacks (fcCand supply base s i))) := by
  intro fuel
  induction fuel with
  | zero =>
    intro base
    exact ⟨fun _ => rfl, fun i hi => absurd hi (by omega)⟩
  | succ fuel ih =>
    intro base
    by_cases h0 : fcGood supply base s ca 0
    · have hcond : calcAttacks (genCandidate supply base s.length) < ca ∨
          calcAttacks (genCandidate supply base s.length) = 0 := by
        rw [← fcCand_zero supply base s]
        exact h0
      constructor
      · intro hall
        exact absurd h0 (hall 0 (by omega))
      · intro i hi hgood hmin
        have hi0 : i = 0 := by
          by_contra hne
          exact hmin 0 (by omega) h0
        subst hi0
        simp only [firstChoiceAux, if_pos hcond]
        rw [fcCand_zero]
    · have hcond : ¬(calcAttacks (genCandidate supply base s.length) < ca ∨
          calcAttacks (genCandidate supply base s.length) = 0) := by
        rw [← fcCand_zero supply base s]
        exact h0
      obtain ⟨ihA, ihB⟩ := ih (base + s.length)
      constructor
      · intro hall
        simp only [firstChoiceAux, if_neg hcond]
        apply ihA
        intro i hi
        simp only [fcGood, fcCand_shift]
        exact hall (i + 1) (by omega)
      · intro i hi hgood hmin
        have hi0 : i ≠ 0 := fun h => h0 (h ▸ hgood)
        obtain ⟨i', rfl⟩ : ∃ i', i = i' + 1 := ⟨i - 1, by omega⟩
        simp only [firstChoiceAux, if_neg hcond]
        have hgood' : fcGood supply (base + s.length) s ca i' := by
          simp only [fcGood, fcCand_shift]
          exact hgood
        have hmin' : ∀ j, j < i' → ¬fcGood supply (base + s.length) s ca j := by
          intro j hj
          simp only [fcGood, fcCand_shift]
          exact hmin (j + 1) (by omega)
        rw [ihB i' (by omega) hgood' hmin', fcCand_shift]

/-- Claim C6: the first-choice generator tries up to 100 full random boards
(8 fresh draws each); it returns the first one whose conflict count is
strictly below the current count or exactly zero, and if none of the 100
qualifies it returns the original state with its original count unchanged. -/
theorem spec_C6 (supply : Nat → Fin 8) (idx : Nat) (s : List Int)
    (hlen : s.length = 8) (hvals : ∀ v ∈ s, 0 ≤ v ∧ v ≤ 7) :
    ((∀ i, i < 100 → ¬fcGood supply idx s (calcAttacks s) i) →
      (getFirstChoiceSuccessor supply idx s).1 = (s, calcAttacks s)) ∧
    (∀ i, i < 100 → fcGood supply idx s (calcAttacks s) i →
      (∀ j, j < i → ¬fcGood supply idx s (calcAttacks s) j) →
      (getFirstChoiceSuccessor supply idx s).1 =
        (fcCand supply idx s i, calcAttacks (fcCand supply idx s i))) := by
  exact firstChoiceAux_spec supply s (calcAttacks s) 100 idx

set_option maxRecDepth 4000 in
/-- Witness for C6 with the cycling supply and the all-zero board. -/
theorem spec_C6_witness :
    ([0, 0, 0, 0, 0, 0, 0, 0] : List Int).length = 8 ∧
      (∀ v ∈ ([0, 0, 0, 0, 0, 0, 0, 0] : List Int), 0 ≤ v ∧ v ≤ 7) ∧
      (((∀ i, i < 100 →
          ¬fcGood mod8Supply 0 [0, 0, 0, 0, 0, 0, 0, 0]
            (calcAttacks [0, 0, 0, 0, 0, 0, 0, 0]) i) →
        (getFirstChoiceSuccessor mod8Supply 0 [0, 0, 0, 0, 0, 0, 0, 0]).1 =
          ([0, 0, 0, 0, 0, 0, 0, 0], calcAttacks [0, 0, 0, 0, 0, 0, 0, 0])) ∧
      (∀ i, i < 100 → fcGood mod8Supply 0 [0, 0, 0, 0, 0, 0, 0, 0]
            (calcAttacks [0, 0, 0, 0, 0, 0, 0, 0]) i →
        (∀ j, j < i → ¬fcGood mod8Supply 0 [0, 0, 0, 0, 0, 0, 0, 0]
            (calcAttacks [0, 0, 0, 0, 0, 0, 0, 0]) j) →
        (getFirstChoiceSuccessor mod8Supply 0 [0, 0, 0, 0, 0, 0, 0, 0]).1 =
          (fcCand mod8Supply 0 [0, 0, 0, 0, 0, 0, 0, 0] i,
            calcAttacks (fcCand mod8Supply 0 [0, 0, 0, 0, 0, 0, 0, 0] i)))) :=
  ⟨by decide, by decide,
    spec_C6 mod8Supply 0 [0, 0, 0, 0, 0, 0, 0, 0] (by decide) (by decide)⟩

/-- The local-search while loop of `hillClimbing` (lines 90-104), over an
abstract successor generator returning `((successorState, successorAttacks),
new cursor)`.  While the count is positive: call the generator; accept the
successor exactly when strictly better (returning it at once if it solves),
otherwise stop without accepting. -/
def localSearch (gen : Nat → List Int → (List Int × Nat) × Nat) (idx : Nat)
    (current : List Int) (currentAttacks : Nat) : (List Int × Nat) × Nat :=
  if currentAttacks > 0 then
    if h : (gen idx current).1.2 < currentAttacks then
      if (gen idx current).1.2 = 0 then gen idx current
      else localSearch gen (gen idx current).2 (gen idx current).1.1 (gen idx current).1.2
    else ((current, currentAttacks), (gen idx current).2)
  else ((current, currentAttacks), idx)
termination_by currentAttacks
decreasing_by exact h

/-- The sequence of `((state, count), cursor)` configurations the
local-search loop passes through, initial configuration included. -/
def localSearchTrace (gen : Nat → List Int → (List Int × Nat) × Nat) (idx : Nat)
    (current : List Int) (currentAttacks : Nat) : List ((List Int × Nat) × Nat) :=
  if currentAttacks > 0 then
    if h : (gen idx current).1.2 < currentAttacks then
      if (gen idx current).1.2 = 0 then [((current, currentAttacks), idx), gen idx current]
      else ((current, currentAttacks), idx) ::
        localSearchTrace gen (gen idx current).2 (gen idx current).1.1 (gen idx current).1.2
    else [((current, currentAttacks), idx)]
  else [((current, currentAttacks), idx)]
termination_by currentAttacks
decreasing_by exact h

/-- One accepted move of the local search: the loop is still running, the
generated successor is strictly better, and the next configuration is
exactly the generator's result. -/
def acceptRel (gen : Nat → List Int → (List Int × Nat) × Nat)
    (p q : (List Int × Nat) × Nat) : Prop :=
  0 < p.1.2 ∧ (gen p.2 p.1.1).1.2 < p.1.2 ∧ q = gen p.2 p.1.1

/-- Claim C4: within one restart, every move of the local-search loop is an
acceptance of a strictly better successor (so the count strictly decreases
along the trace), and the loop stops exactly at a configuration that either
is solved or whose generated candidate is not strictly better. -/
theorem spec_C4 (gen : Nat → List Int → (List Int × Nat) × Nat) (idx : Nat)
    (s : List Int) (a : Nat) :
    localSearchTrace gen idx s a ≠ [] ∧
    (localSearchTrace gen idx s a).head? = some ((s, a), idx) ∧
    List.Chain' (acceptRel gen) (localSearchTrace gen idx s a) ∧
    ∃ L, (localSearchTrace gen idx s a).getLast? = some L ∧
      (localSearch gen idx s a).1 = L.1 ∧
      (L.1.2 = 0 ∨ ¬(gen L.2 L.1.1).1.2 < L.1.2) := by
  induction a using Nat.strong_induction_on generalizing idx s with
  | _ a ih =>
    by_cases ha : a > 0
    · by_cases hlt : (gen idx s).1.2 < a
      · by_cases h0 : (gen idx s).1.2 = 0
        · rw [localSearchTrace, localSearch, if_pos ha, if_pos ha, dif_pos hlt,
            dif_pos hlt, if_pos h0, if_pos h0]
          refine ⟨by simp, by simp, ?_, gen idx s, by simp, rfl, Or.inl h0⟩
          exact List.chain'_pair.mpr ⟨ha, hlt, rfl⟩
        · obtain ⟨ihne, ihhead, ihchain, L, ihlast, ihres, ihterm⟩ :=
            ih (gen idx s).1.2 hlt (gen idx s).2 (gen idx s).1.1
          rw [localSearchTrace, localSearch, if_pos ha, if_pos ha, dif_pos hlt,
            dif_pos hlt, if_neg h0, if_neg h0]
          refine ⟨by simp, by simp, ?_, L, ?_, ihres, ihterm⟩
          · rw [List.chain'_cons']
            refine ⟨?_, ihchain⟩
            intro y hy
            rw [ihhead] at hy
            obtain rfl := Option.mem_some_iff.mp hy
            exact ⟨ha, hlt, rfl⟩
          · obtain ⟨b, L', hbl⟩ := List.exists_cons_of_ne_nil ihne
            rw [hbl, List.getLast?_cons_cons, ← hbl]
            exact ihlast
      · rw [localSearchTrace, localSearch, if_pos ha, if_pos ha, dif_neg hlt,
          dif_neg hlt]
        exact ⟨by simp, by simp, List.chain'_singleton _,
          ((s, a), idx), by simp, rfl, Or.inr hlt⟩
    · rw [localSearchTrace, localSearch, if_neg ha, if_neg ha]
      exact ⟨by simp, by simp, List.chain'_singleton _,
        ((s, a), idx), by simp, rfl, Or.inl (show a = 0 by omega)⟩

/-- The local-search loop makes at most `a + 1` configurations from a start
count of `a`: each acceptance strictly decreases the count. -/
theorem localSearchTrace_length (gen : Nat → List Int → (List Int × Nat) × Nat) :
    ∀ (a idx : Nat) (s : List Int), (localSearchTrace gen idx s a).length ≤ a + 1 := by
  intro a
  induction a using Nat.strong_induction_on with
  | _ a ih =>
    intro idx s
    by_cases ha : a > 0
    · by_cases hlt : (gen idx s).1.2 < a
      · by_cases h0 : (gen idx s).1.2 = 0
        · rw [localSearchTrace, if_pos ha, dif_pos hlt, if_pos h0]
          simp only [List.length_cons, List.length_nil]
          omega
        · rw [localSearchTrace, if_pos ha, dif_pos hlt, if_neg h0]
          have := ih (gen idx s).1.2 hlt (gen idx s).2 (gen idx s).1.1
          simp only [List.length_cons]
          omega
      · rw [localSearchTrace, if_pos ha, dif_neg hlt]
        simp only [List.length_cons, List.length_nil]
        omega
    · rw [localSearchTrace, if_neg ha]
      simp

/-- Claim C8: the search always terminates and yields a result.  The
local-search loop runs at most `a + 1` configurations because each accepted
step strictly decreases the non-negative conflict count, and the
rejection-sampling retry loop of the initial-state generator finds a fresh
draw after finitely many attempts for every fair supply (fairness is the
almost-sure property of the random stream). -/
theorem spec_C8 :
    (∀ (gen : Nat → List Int → (List Int × Nat) × Nat) (idx : Nat) (s : List Int)
      (a : Nat), (localSearchTrace gen idx s a).length ≤ a + 1) ∧
    (∀ (supply : Nat → Fin 8), FairSupply supply → ∀ (start : Nat) (board : List Int),
      board.length ≤ 8 → (-1 : Int) ∈ board →
      ∃ k, (((supply (start + k) : Nat) : Int)) ∉ board) :=
  ⟨fun gen idx s a => localSearchTrace_length gen a idx s,
    fun _ fair start board hlen hneg => fresh_exists fair start board hlen hneg⟩

/-- Witness for C8: the length bound at a concrete generator and start, and
a fresh draw for the cycling supply on the all-`-1` board. -/
theorem spec_C8_witness :
    (localSearchTrace (fun idx s => ((s, 0), idx)) 0 [0, 0, 0, 0, 0, 0, 0, 0] 28).length
        ≤ 29 ∧
      FairSupply mod8Supply ∧
      (List.replicate 8 (-1 : Int)).length ≤ 8 ∧
      (-1 : Int) ∈ List.replicate 8 (-1 : Int) ∧
      ∃ k, (((mod8Supply (0 + k) : Nat) : Int)) ∉ List.replicate 8 (-1 : Int) :=
  ⟨spec_C8.1 (fun idx s => ((s, 0), idx)) 0 [0, 0, 0, 0, 0, 0, 0, 0] 28,
    mod8Supply_fair, by decide, by decide,
    spec_C8.2 mod8Supply mod8Supply_fair 0 (List.replicate 8 (-1 : Int))
      (by decide) (by decide)⟩

/-- One restart iteration's local-search result (lines 86-104): draw a
fresh random initial state, compute its conflicts, run local search. -/
def restartResult (gen : Nat → List Int → (List Int × Nat) × Nat)
    (draw : Nat → List Int × Nat) (idx : Nat) : (List Int × Nat) × Nat :=
  localSearch gen (draw idx).2 (draw idx).1 (calcAttacks (draw idx).1)

/-- The restart loop of `hillClimbing` (lines 84-112): keep the best
result, updating it exactly when strictly better or zero, and break out of
the loop as soon as a zero-conflict state is found.  `draw` abstracts
`randomEightQueensBoard` together with the random-stream cursor. -/
def hillClimbingAux (gen : Nat → List Int → (List Int × Nat) × Nat)
    (draw : Nat → List Int × Nat) :
    Nat → Nat → Option (List Int) → Nat → Option (List Int) × Nat
  | 0, _, bestState, bestAttacks => (bestState, bestAttacks)
  | k + 1, idx, bestState, bestAttacks =>
    if (restartResult gen draw idx).1.2 < bestAttacks ∨
        (restartResult gen draw idx).1.2 = 0 then
      if (restartResult gen draw idx).1.2 = 0 then
        (some (restartResult gen draw idx).1.1, (restartResult gen draw idx).1.2)
      else
        hillClimbingAux gen draw k (restartResult gen draw idx).2
          (some (restartResult gen draw idx).1.1) (restartResult gen draw idx).1.2
    else hillClimbingAux gen draw k (restartResult gen draw idx).2 bestState bestAttacks

/-- Model of `hillClimbing` (lines 77-114): `maxRestart = 500`, sentinel
start `(None, 999)`; elapsed-time bookkeeping dropped. -/
def hillClimbing (gen : Nat → List Int → (List Int × Nat) × Nat)
    (draw : Nat → List Int × Nat) : Option (List Int) × Nat :=
  hillClimbingAux gen draw 500 0 none 999

/-- The `(state, count)` results of the restart iterations actually
executed: the loop stops early after a zero-conflict result. -/
def hcTrace (gen : Nat → List Int → (List Int × Nat) × Nat)
    (draw : Nat → List Int × Nat) : Nat → Nat → List (List Int × Nat)
  | 0, _ => []
  | k + 1, idx =>
    if (restartResult gen draw idx).1.2 = 0 then [(restartResult gen draw idx).1]
    else (restartResult gen draw idx).1 :: hcTrace gen draw k (restartResult gen draw idx).2

theorem hcAux_trace (gen : Nat → List Int → (List Int × Nat) × Nat)
    (draw : Nat → List Int × Nat) :
    ∀ (k idx : Nat) (bst : Option (List Int)) (b : Nat), 0 < b →
      (hillClimbingAux gen draw k idx bst b).2 =
        ((hcTrace gen draw k idx).map Prod.snd).foldl min b ∧
      ((hillClimbingAux gen draw k idx bst b = (bst, b) ∧
          ∀ p ∈ hcTrace gen draw k idx, b ≤ p.2) ∨
        (∃ p ∈ hcTrace gen draw k idx, hillClimbingAux gen draw k idx bst b = (some p.1, p.2))) := by
  intro k
  induction k with
  | zero =>
    intro idx bst b hb
    exact ⟨rfl, Or.inl ⟨rfl, by simp [hcTrace]⟩⟩
  | succ k ih =>
    intro idx bst b hb
    by_cases hca0 : (restartResult gen draw idx).1.2 = 0
    · rw [hillClimbingAux, hcTrace, if_pos (Or.inr hca0), if_pos hca0, if_pos hca0]
      constructor
      · simp [hca0]
      · refine Or.inr ⟨(restartResult gen draw idx).1, by simp, rfl⟩
    · by_cases hlt : (restartResult gen draw idx).1.2 < b
      · rw [hillClimbingAux, hcTrace, if_pos (Or.inl hlt), if_neg hca0, if_neg hca0]
        obtain ⟨ihc, ihd⟩ := ih (restartResult gen draw idx).2
          (some (restartResult gen draw idx).1.1) (restartResult gen draw idx).1.2
          (by omega)
        constructor
        · rw [ihc]
          simp only [List.map_cons, List.foldl_cons]
          congr 1
          omega
        · right
          rcases ihd with ⟨heq, hall⟩ | ⟨p, hp, heq⟩
          · exact ⟨(restartResult gen draw idx).1, List.mem_cons_self _ _, heq⟩
          · exact ⟨p, List.mem_cons_of_mem _ hp, heq⟩
      · have hge : ¬((restartResult gen draw idx).1.2 < b ∨
            (restartResult gen draw idx).1.2 = 0) := by
          intro h
          rcases h with h | h
          · exact hlt h
          · exact hca0 h
        rw [hillClimbingAux, hcTrace, if_neg hge, if_neg hca0]
        obtain ⟨ihc, ihd⟩ := ih (restartResult gen draw idx).2 bst b hb
        constructor
        · rw [ihc]
          simp only [List.map_cons, List.foldl_cons]
          congr 1
          omega
        · rcases ihd with ⟨heq, hall⟩ | ⟨p, hp, heq⟩
          · refine Or.inl ⟨heq, ?_⟩
            intro p hp
            rcases List.mem_cons.mp hp with h | h
            · rw [h]
              omega
            · exact hall p h
          · exact Or.inr ⟨p, List.mem_cons_of_mem _ hp, heq⟩

theorem hcTrace_length (gen : Nat → List Int → (List Int × Nat) × Nat)
    (draw : Nat → List Int × Nat) :
    ∀ (k idx : Nat), (hcTrace gen draw k idx).length ≤ k := by
  intro k
  induction k with
  | zero => intro idx; simp [hcTrace]
  | succ k ih =>
    intro idx
    by_cases hca0 : (restartResult gen draw idx).1.2 = 0
    · rw [hcTrace, if_pos hca0]
      simp only [List.length_cons, List.length_nil]
      omega
    · rw [hcTrace, if_neg hca0]
      simp only [List.length_cons]
      have := ih (restartResult gen draw idx).2
      omega

theorem head?_scanl {α β : Type} (f : β → α → β) (b : β) (l : List α) :
    (List.scanl f b l).head? = some b := by
  cases l <;> simp [List.scanl]

theorem chain'_ge_scanl_min : ∀ (l : List Nat) (b : Nat),
    List.Chain' (fun x y => y ≤ x) (List.scanl min b l) := by
  intro l
  induction l with
  | nil =>
    intro b
    rw [List.scanl_nil]
    exact List.chain'_singleton b
  | cons x t ih =>
    intro b
    rw [List.scanl_cons]
    rw [List.singleton_append, List.chain'_cons']
    refine ⟨?_, ih (min b x)⟩
    intro y hy
    rw [head?_scanl] at hy
    obtain rfl := Option.mem_some_iff.mp hy
    omega

theorem hcTrace_zero_last (gen : Nat → List Int → (List Int × Nat) × Nat)
    (draw : Nat → List Int × Nat) :
    ∀ (k idx : Nat), ∀ p ∈ (hcTrace gen draw k idx).dropLast, p.2 ≠ 0 := by
  intro k
  induction k with
  | zero =>
    intro idx p hp
    simp [hcTrace] at hp
  | succ k ih =>
    intro idx p hp
    by_cases hca0 : (restartResult gen draw idx).1.2 = 0
    · rw [hcTrace, if_pos hca0, List.dropLast_single] at hp
      exact absurd hp (List.not_mem_nil p)
    · rw [hcTrace, if_neg hca0] at hp
      rcases hq : hcTrace gen draw k (restartResult gen draw idx).2 with _ | ⟨q, t'⟩
      · rw [hq, List.dropLast_single] at hp
        exact absurd hp (List.not_mem_nil p)
      · rw [hq] at hp
        simp only [List.dropLast_cons₂, List.mem_cons] at hp
        rcases hp with hp | hp
        · rw [hp]
          exact hca0
        · refine ih (restartResult gen draw idx).2 p ?_
          rw [hq]
          exact hp

/-- Claim C5: the engine executes at most 500 restart iterations; its final
count is the running minimum (start 999) over the executed iterations — so
the best-seen count, read along the `scanl min` prefix sequence, never
increases; a zero-conflict result can only be the last iteration executed
(the loop stops there); and the returned pair is the lowest-conflict result
seen (or the untouched sentinel if every result is at least 999). -/
theorem spec_C5 (gen : Nat → List Int → (List Int × Nat) × Nat)
    (draw : Nat → List Int × Nat) :
    (hcTrace gen draw 500 0).length ≤ 500 ∧
    (hillClimbing gen draw).2 = ((hcTrace gen draw 500 0).map Prod.snd).foldl min 999 ∧
    List.Chain' (fun x y => y ≤ x)
      (List.scanl min 999 ((hcTrace gen draw 500 0).map Prod.snd)) ∧
    (∀ p ∈ (hcTrace gen draw 500 0).dropLast, p.2 ≠ 0) ∧
    ((hillClimbing gen draw = (none, 999) ∧ ∀ p ∈ hcTrace gen draw 500 0, 999 ≤ p.2) ∨
      (∃ p ∈ hcTrace gen draw 500 0, hillClimbing gen draw = (some p.1, p.2))) := by
  obtain ⟨hcount, hdisj⟩ := hcAux_trace gen draw 500 0 none 999 (by omega)
  exact ⟨hcTrace_length gen draw 500 0, hcount,
    chain'_ge_scanl_min ((hcTrace gen draw 500 0).map Prod.snd) 999,
    hcTrace_zero_last gen draw 500 0, hdisj⟩

/-- A valid board: length 8 with all values in `[0, 7]`. -/
def ValidBoard (b : List Int) : Prop := b.length = 8 ∧ ∀ v ∈ b, 0 ≤ v ∧ v ≤ 7

/-- The local search preserves board validity and the invariant that the
carried count is the conflict count of the carried state, and never ends
with more conflicts than it started with. -/
theorem localSearch_inv (gen : Nat → List Int → (List Int × Nat) × Nat)
    (hgen : ∀ idx s, ValidBoard s →
      ValidBoard (gen idx s).1.1 ∧ (gen idx s).1.2 = calcAttacks (gen idx s).1.1) :
    ∀ (a idx : Nat) (s : List Int), ValidBoard s → a = calcAttacks s →
      ValidBoard (localSearch gen idx s a).1.1 ∧
      (localSearch gen idx s a).1.2 = calcAttacks (localSearch gen idx s a).1.1 ∧
      (localSearch gen idx s a).1.2 ≤ a := by
  intro a
  induction a using Nat.strong_induction_on with
  | _ a ih =>
    intro idx s hs ha
    by_cases hpos : a > 0
    · by_cases hlt : (gen idx s).1.2 < a
      · by_cases h0 : (gen idx s).1.2 = 0
        · rw [localSearch, if_pos hpos, dif_pos hlt, if_pos h0]
          obtain ⟨hv, hc⟩ := hgen idx s hs
          exact ⟨hv, hc, by omega⟩
        · rw [localSearch, if_pos hpos, dif_pos hlt, if_neg h0]
          obtain ⟨hv, hc⟩ := hgen idx s hs
          obtain ⟨ih1, ih2, ih3⟩ := ih (gen idx s).1.2 hlt (gen idx s).2 (gen idx s).1.1 hv hc
          exact ⟨ih1, ih2, by omega⟩
      · rw [localSearch, if_pos hpos, dif_neg hlt]
        exact ⟨hs, ha, le_rfl⟩
    · rw [localSearch, if_neg hpos]
      exact ⟨hs, ha, le_rfl⟩

/-- Once the best-seen record holds an actual state consistent with its
count, the rest of the restart loop keeps it so and never regresses. -/
theorem hcAux_keep (gen : Nat → List Int → (List Int × Nat) × Nat)
    (draw : Nat → List Int × Nat)
    (hdraw : ∀ idx, ValidBoard (draw idx).1)
    (hgen : ∀ idx s, ValidBoard s →
      ValidBoard (gen idx s).1.1 ∧ (gen idx s).1.2 = calcAttacks (gen idx s).1.1) :
    ∀ (k idx : Nat) (c : List Int) (b : Nat), ValidBoard c → b = calcAttacks c →
      ∃ d, (hillClimbingAux gen draw k idx (some c) b).1 = some d ∧ ValidBoard d ∧
        (hillClimbingAux gen draw k idx (some c) b).2 = calcAttacks d ∧
        (hillClimbingAux gen draw k idx (some c) b).2 ≤ b := by
  intro k
  induction k with
  | zero =>
    intro idx c b hc hb
    exact ⟨c, rfl, hc, hb, le_rfl⟩
  | succ k ih =>
    intro idx c b hc hb
    obtain ⟨hrv, hrc, hrle⟩ := localSearch_inv gen hgen (calcAttacks (draw idx).1)
      (draw idx).2 (draw idx).1 (hdraw idx) rfl
    by_cases hca0 : (restartResult gen draw idx).1.2 = 0
    · rw [hillClimbingAux, if_pos (Or.inr hca0), if_pos hca0]
      exact ⟨(restartResult gen draw idx).1.1, rfl, hrv, hrc, by omega⟩
    · by_cases hlt : (restartResult gen draw idx).1.2 < b
      · rw [hillClimbingAux, if_pos (Or.inl hlt), if_neg hca0]
        obtain ⟨d, hd1, hd2, hd3, hd4⟩ := ih (restartResult gen draw idx).2
          (restartResult gen draw idx).1.1 (restartResult gen draw idx).1.2 hrv hrc
        exact ⟨d, hd1, hd2, hd3, by omega⟩
      · have hge : ¬((restartResult gen draw idx).1.2 < b ∨
            (restartResult gen draw idx).1.2 = 0) := by
          intro h
          rcases h with h | h
          · exact hlt h
          · exact hca0 h
        rw [hillClimbingAux, if_neg hge]
        exact ih (restartResult gen draw idx).2 c b hc hb

/-- Claim C10: for any generator that returns valid states with consistent
counts and any draw of valid initial boards, `hillClimbing` never lets the
`(None, 999)` sentinel escape: it returns `some` valid length-8 board whose
conflict count is exactly the returned count, at most 28. -/
theorem spec_C10 (gen : Nat → List Int → (List Int × Nat) × Nat)
    (draw : Nat → List Int × Nat)
    (hdraw : ∀ idx, ValidBoard (draw idx).1)
    (hgen : ∀ idx s, ValidBoard s →
      ValidBoard (gen idx s).1.1 ∧ (gen idx s).1.2 = calcAttacks (gen idx s).1.1) :
    ∃ b, (hillClimbing gen draw).1 = some b ∧ b.length = 8 ∧
      (∀ v ∈ b, 0 ≤ v ∧ v ≤ 7) ∧ (hillClimbing gen draw).2 = calcAttacks b ∧
      (hillClimbing gen draw).2 ≤ 28 := by
  obtain ⟨hrv, hrc, hrle⟩ := localSearch_inv gen hgen (calcAttacks (draw 0).1)
    (draw 0).2 (draw 0).1 (hdraw 0) rfl
  have hd28 : calcAttacks (draw 0).1 ≤ 28 := calcAttacks_le_28 (draw 0).1 (hdraw 0).1
  have hr28 : (restartResult gen draw 0).1.2 ≤ 28 := by
    have : (restartResult gen draw 0).1.2 ≤ calcAttacks (draw 0).1 := hrle
    omega
  show ∃ b, (hillClimbingAux gen draw 500 0 none 999).1 = some b ∧ b.length = 8 ∧
    (∀ v ∈ b, 0 ≤ v ∧ v ≤ 7) ∧ (hillClimbingAux gen draw 500 0 none 999).2 = calcAttacks b ∧
    (hillClimbingAux gen draw 500 0 none 999).2 ≤ 28
  by_cases hca0 : (restartResult gen draw 0).1.2 = 0
  · rw [show (500 : Nat) = 499 + 1 from rfl, hillClimbingAux, if_pos (Or.inr hca0),
      if_pos hca0]
    exact ⟨(restartResult gen draw 0).1.1, rfl, hrv.1, hrv.2, hrc, by omega⟩
  · have hlt : (restartResult gen draw 0).1.2 < 999 := by omega
    rw [show (500 : Nat) = 499 + 1 from rfl, hillClimbingAux, if_pos (Or.inl hlt),
      if_neg hca0]
    obtain ⟨d, hd1, hd2, hd3, hd4⟩ := hcAux_keep gen draw hdraw hgen 499
      (restartResult gen draw 0).2 (restartResult gen draw 0).1.1
      (restartResult gen draw 0).1.2 hrv hrc
    exact ⟨d, hd1, hd2.1, hd2.2, hd3, by omega⟩

/-- Adapter plugging `getBestSuccessor` into the engine (line 162): the
engine uses the optional successor state only when it accepts it, and for
the length-8 boards the engine passes the option is always `some`, so
resolving it against the current state changes nothing. -/
def bestGen (idx : Nat) (current : List Int) : (List Int × Nat) × Nat :=
  (((getBestSuccessor current).1.getD current, (getBestSuccessor current).2), idx)

/-- Adapter plugging `getFirstChoiceSuccessor` into the engine (line 168). -/
def firstChoiceGen (supply : Nat → Fin 8) (idx : Nat) (current : List Int) :
    (List Int × Nat) × Nat :=
  getFirstChoiceSuccessor supply idx current

/-- The best-successor generator satisfies the engine's contract: valid
state out, count consistent with the state. -/
theorem bestGen_props : ∀ (idx : Nat) (s : List Int), ValidBoard s →
    ValidBoard (bestGen idx s).1.1 ∧
    (bestGen idx s).1.2 = calcAttacks (bestGen idx s).1.1 := by
  intro idx s hs
  obtain ⟨hlen, hvals⟩ := hs
  obtain ⟨c₀, t, hct, hfold⟩ := getBest_decomp s hlen
  obtain ⟨h1, h2, ⟨d, hd1, hd2, hd3⟩, h4, h5⟩ := bestFold_spec t c₀
  have hd_mem : d ∈ candList s := by
    rw [hct]
    rcases hd3 with h | h
    · exact h ▸ List.mem_cons_self c₀ t
    · exact List.mem_cons_of_mem c₀ h
  have hgetD : (getBestSuccessor s).1.getD s = d := by
    rw [hfold, hd1]
    rfl
  have hc2 : (getBestSuccessor s).2 = calcAttacks d := by
    rw [hfold]
    exact hd2
  constructor
  · show ValidBoard ((getBestSuccessor s).1.getD s)
    rw [hgetD]
    exact ⟨by rw [candList_mem_length hd_mem, hlen], candList_mem_vals hlen hvals hd_mem⟩
  · show (getBestSuccessor s).2 = calcAttacks ((getBestSuccessor s).1.getD s)
    rw [hgetD, hc2]

theorem firstChoiceAux_cases (supply : Nat → Fin 8) (s : List Int) (ca : Nat) :
    ∀ (fuel idx : Nat),
      (firstChoiceAux supply s ca fuel idx).1 = (s, ca) ∨
      ∃ j, (firstChoiceAux supply s ca fuel idx).1 =
        (genCandidate supply j s.length, calcAttacks (genCandidate supply j s.length)) := by
  intro fuel
  induction fuel with
  | zero =>
    intro idx
    exact Or.inl rfl
  | succ fuel ih =>
    intro idx
    by_cases h : calcAttacks (genCandidate supply idx s.length) < ca ∨
        calcAttacks (genCandidate supply idx s.length) = 0
    · simp only [firstChoiceAux, if_pos h]
      exact Or.inr ⟨idx, rfl⟩
    · simp only [firstChoiceAux, if_neg h]
      exact ih (idx + s.length)

theorem genCandidate_valid (supply : Nat → Fin 8) (j : Nat) :
    ValidBoard (genCandidate supply j 8) := by
  constructor
  · simp [genCandidate]
  · intro v hv
    simp only [genCandidate, List.mem_map, List.mem_range] at hv
    obtain ⟨i, hi, rfl⟩ := hv
    constructor
    · exact Int.natCast_nonneg _
    · exact_mod_cast Nat.le_of_lt_succ (Fin.isLt _)

/-- The first-choice generator satisfies the engine's contract. -/
theorem firstChoiceGen_props (supply : Nat → Fin 8) :
    ∀ (idx : Nat) (s : List Int), ValidBoard s →
      ValidBoard (firstChoiceGen supply idx s).1.1 ∧
      (firstChoiceGen supply idx s).1.2 =
        calcAttacks (firstChoiceGen supply idx s).1.1 := by
  intro idx s hs
  rcases firstChoiceAux_cases supply s (calcAttacks s) 100 idx with h | ⟨j, h⟩
  · constructor
    · show ValidBoard (firstChoiceAux supply s (calcAttacks s) 100 idx).1.1
      rw [h]
      exact hs
    · show (firstChoiceAux supply s (calcAttacks s) 100 idx).1.2 =
        calcAttacks (firstChoiceAux supply s (calcAttacks s) 100 idx).1.1
      rw [h]
  · rw [hs.1] at h
    constructor
    · show ValidBoard (firstChoiceAux supply s (calcAttacks s) 100 idx).1.1
      rw [h]
      exact genCandidate_valid supply j
    · show (firstChoiceAux supply s (calcAttacks s) 100 idx).1.2 =
        calcAttacks (firstChoiceAux supply s (calcAttacks s) 100 idx).1.1
      rw [h]

set_option maxRecDepth 4000 in
/-- Witness for C10: the engine with the best-successor generator and a
constant valid draw. -/
theorem spec_C10_witness :
    (∀ idx : Nat,
      ValidBoard ((fun (i : Nat) => (([0, 4, 7, 5, 2, 6, 1, 3] : List Int), i)) idx).1) ∧
    (∀ (idx : Nat) (s : List Int), ValidBoard s →
      ValidBoard (bestGen idx s).1.1 ∧
      (bestGen idx s).1.2 = calcAttacks (bestGen idx s).1.1) ∧
    (∃ b, (hillClimbing bestGen (fun (i : Nat) => ([0, 4, 7, 5, 2, 6, 1, 3], i))).1 =
        some b ∧ b.length = 8 ∧ (∀ v ∈ b, 0 ≤ v ∧ v ≤ 7) ∧
      (hillClimbing bestGen (fun (i : Nat) => ([0, 4, 7, 5, 2, 6, 1, 3], i))).2 =
        calcAttacks b ∧
      (hillClimbing bestGen (fun (i : Nat) => ([0, 4, 7, 5, 2, 6, 1, 3], i))).2 ≤ 28) :=
  ⟨fun _ => show ValidBoard ([0, 4, 7, 5, 2, 6, 1, 3] : List Int) from ⟨by decide, by decide⟩,
    bestGen_props,
    spec_C10 bestGen (fun (i : Nat) => ([0, 4, 7, 5, 2, 6, 1, 3], i))
      (fun _ => show ValidBoard ([0, 4, 7, 5, 2, 6, 1, 3] : List Int) from
        ⟨by decide, by decide⟩)
      bestGen_props⟩
